import Mathlib

/-!
Shallow embedding of `jsanalyzer.py` and proofs about its specified behaviour.

Text is modelled as `List Char`.  The two regular expressions of
`extract_info` are embedded as explicit left-to-right, non-overlapping
scanners (the semantics of Python `re.findall`); the character classes of
the patterns are pairwise disjoint, so greedy maximal-run matching needs no
backtracking and the scanners below are exact.
-/

/-- Python `\s` (`re` whitespace class, ASCII part). -/
def isPySpace (c : Char) : Bool :=
  c = ' ' || c = '\t' || c = '\n' || c = '\r' || c = '\x0b' || c = '\x0c'

/-- Characters admitted by `[^\s'"]` in the URL pattern. -/
def isUrlChar (c : Char) : Bool :=
  !(isPySpace c || c = '\'' || c = '"')

/-- Characters of the separator class `[\s=:]` in the credential pattern. -/
def isSepChar (c : Char) : Bool :=
  isPySpace c || c = '=' || c = ':'

/-- The optional-quote class in the credential pattern. -/
def isQuoteChar (c : Char) : Bool :=
  c = '"' || c = '\''

/-- Python `\w` (word character), ASCII part. -/
def isWordChar (c : Char) : Bool :=
  c.isAlphanum || c = '_'

/-- Characters of the captured class `[\w-]` in the credential pattern. -/
def isTokChar (c : Char) : Bool :=
  isWordChar c || c = '-'

theorem length_dropWhile_le (p : Char → Bool) (l : List Char) :
    (l.dropWhile p).length ≤ l.length := by
  induction l with
  | nil => simp [List.dropWhile]
  | cons a t ih =>
    simp only [List.dropWhile]
    split
    · exact Nat.le_succ_of_le ih
    · exact Nat.le_refl _

/-- One attempted match of `https?://[^\s'"]+` after the literal `http`:
`s?` then `://` then a maximal nonempty run of URL characters.  Returns the
matched tail and the remaining input. -/
def matchUrlTail : List Char → Option (List Char × List Char)
  | ':' :: '/' :: '/' :: body =>
    if (body.takeWhile isUrlChar).isEmpty then none
    else some (':' :: '/' :: '/' :: body.takeWhile isUrlChar, body.dropWhile isUrlChar)
  | 's' :: ':' :: '/' :: '/' :: body =>
    if (body.takeWhile isUrlChar).isEmpty then none
    else some ('s' :: ':' :: '/' :: '/' :: body.takeWhile isUrlChar, body.dropWhile isUrlChar)
  | _ => none

/-- One attempted match of `https?://[^\s'"]+` at the head of the input. -/
def matchUrlAt : List Char → Option (List Char × List Char)
  | 'h' :: 't' :: 't' :: 'p' :: rest =>
    match matchUrlTail rest with
    | some (m, r) => some ('h' :: 't' :: 't' :: 'p' :: m, r)
    | none => none
  | _ => none

theorem matchUrlTail_rest_lt {cs m rest : List Char}
    (h : matchUrlTail cs = some (m, rest)) : rest.length < cs.length := by
  unfold matchUrlTail at h
  split at h
  · split at h
    · exact absurd h (by simp)
    · rename_i body _
      have hle := length_dropWhile_le isUrlChar body
      simp only [Option.some.injEq, Prod.mk.injEq] at h
      obtain ⟨hm, hr⟩ := h
      subst hr
      simp only [List.length_cons]
      omega
  · split at h
    · exact absurd h (by simp)
    · rename_i body _
      have hle := length_dropWhile_le isUrlChar body
      simp only [Option.some.injEq, Prod.mk.injEq] at h
      obtain ⟨hm, hr⟩ := h
      subst hr
      simp only [List.length_cons]
      omega
  · exact absurd h (by simp)

theorem matchUrlAt_rest_lt {cs m rest : List Char}
    (h : matchUrlAt cs = some (m, rest)) : rest.length < cs.length := by
  unfold matchUrlAt at h
  split at h
  · rename_i tl
    split at h
    · rename_i m' r' heq
      have hlt := matchUrlTail_rest_lt heq
      simp only [Option.some.injEq, Prod.mk.injEq] at h
      obtain ⟨hm, hr⟩ := h
      subst hr
      simp only [List.length_cons] at hlt ⊢
      omega
    · exact absurd h (by simp)
  · exact absurd h (by simp)

/-- `re.findall` for the URL pattern: scan left to right; on a match emit it
and resume after its end, otherwise advance one character.  The `fuel`
argument only bounds the recursion; any value at least the input length
leaves the scan unchanged, and `findUrls` passes exactly the length. -/
def findUrlsAux : Nat → List Char → List (List Char)
  | 0, _ => []
  | _ + 1, [] => []
  | fuel + 1, c :: cs =>
    match matchUrlAt (c :: cs) with
    | some (m, rest) => m :: findUrlsAux fuel rest
    | none => findUrlsAux fuel cs

def findUrls (code : List Char) : List (List Char) := findUrlsAux code.length code

/-- Strip a literal pattern case-insensitively (`re.IGNORECASE`) from the
head of the input, returning the remainder on success. -/
def stripCI : List Char → List Char → Option (List Char)
  | [], cs => some cs
  | _ :: _, [] => none
  | p :: ps, c :: cs => if c.toLower = p.toLower then stripCI ps cs else none

theorem stripCI_length : ∀ {p cs r : List Char},
    stripCI p cs = some r → cs.length = p.length + r.length := by
  intro p
  induction p with
  | nil =>
    intro cs r h
    simp only [stripCI, Option.some.injEq] at h
    subst h
    simp
  | cons a ps ih =>
    intro cs r h
    cases cs with
    | nil => exact absurd h (by simp [stripCI])
    | cons c cs' =>
      simp only [stripCI] at h
      split at h
      · have := ih h
        simp only [List.length_cons]
        omega
      · exact absurd h (by simp)

/-- The keyword alternation `(?:api[_-]?key|token|secret)` of the credential
pattern, case-insensitive, with the greedy optional `[_-]` separator and its
backtracking step.  Returns the input after the keyword. -/
def matchKeyword (cs : List Char) : Option (List Char) :=
  match stripCI ("api".toList) cs with
  | some r =>
    match r with
    | c :: r' =>
      if c = '_' || c = '-' then
        match stripCI ("key".toList) r' with
        | some r2 => some r2
        | none => stripCI ("key".toList) r
      else stripCI ("key".toList) r
    | [] => none
  | none =>
    match stripCI ("token".toList) cs with
    | some r => some r
    | none => stripCI ("secret".toList) cs

theorem matchKeyword_rest_lt {cs rest : List Char}
    (h : matchKeyword cs = some rest) : rest.length < cs.length := by
  unfold matchKeyword at h
  split at h
  · rename_i r hapi
    have h1 := stripCI_length hapi
    split at h
    · rename_i c r'
      split at h
      · split at h
        · rename_i r2 hkey
          have h2 := stripCI_length hkey
          simp only [Option.some.injEq] at h
          subst h
          simp_all
          omega
        · have h2 := stripCI_length h
          simp_all
          omega
      · have h2 := stripCI_length h
        simp_all
        omega
    · exact absurd h (by simp)
  · split at h
    · rename_i r htok
      have h1 := stripCI_length htok
      simp only [Option.some.injEq] at h
      subst h
      simp_all
    · have h1 := stripCI_length h
      simp_all

/-- One attempted match of
`(?:api[_-]?key|token|secret)[\s=:]+["\']?([\w-]{8,})` at the head of the
input: keyword, a nonempty maximal separator run, an optional single quote,
then a maximal run of `[\w-]` of length at least 8, which is captured.
Returns the captured value together with the remaining input. -/
def matchTokenAt (cs : List Char) : Option (List Char × List Char) :=
  match matchKeyword cs with
  | none => none
  | some r =>
    if (r.takeWhile isSepChar).isEmpty then none
    else
      match r.dropWhile isSepChar with
      | c :: rest =>
        if isQuoteChar c then
          if (rest.takeWhile isTokChar).length < 8 then none
          else some (rest.takeWhile isTokChar, rest.dropWhile isTokChar)
        else
          if ((c :: rest).takeWhile isTokChar).length < 8 then none
          else some ((c :: rest).takeWhile isTokChar, (c :: rest).dropWhile isTokChar)
      | [] => none

theorem matchTokenAt_rest_lt {cs v rest : List Char}
    (h : matchTokenAt cs = some (v, rest)) : rest.length < cs.length := by
  unfold matchTokenAt at h
  split at h
  · exact absurd h (by simp)
  · rename_i r hkw
    have hk := matchKeyword_rest_lt hkw
    have hsep := length_dropWhile_le isSepChar r
    split at h
    · exact absurd h (by simp)
    · split at h
      · rename_i c rest2 hdrop
        have h2 : (r.dropWhile isSepChar).length = rest2.length + 1 := by
          rw [hdrop]; simp
        split at h
        · split at h
          · exact absurd h (by simp)
          · have hle := length_dropWhile_le isTokChar rest2
            simp only [Option.some.injEq, Prod.mk.injEq] at h
            obtain ⟨hv, hr⟩ := h
            subst hr
            omega
        · split at h
          · exact absurd h (by simp)
          · have hle := length_dropWhile_le isTokChar (c :: rest2)
            simp only [Option.some.injEq, Prod.mk.injEq] at h
            obtain ⟨hv, hr⟩ := h
            subst hr
            simp only [List.length_cons] at hle
            omega
      · exact absurd h (by simp)

/-- `re.findall` for the credential pattern, returning the captured group of
each non-overlapping left-to-right match; `fuel` as in `findUrlsAux`. -/
def findTokensAux : Nat → List Char → List (List Char)
  | 0, _ => []
  | _ + 1, [] => []
  | fuel + 1, c :: cs =>
    match matchTokenAt (c :: cs) with
    | some (v, rest) => v :: findTokensAux fuel rest
    | none => findTokensAux fuel cs

def findTokens (code : List Char) : List (List Char) := findTokensAux code.length code

/-- The pair of deduplicated match lists returned by `extract_info`
(Python `list(set(...))` on each `re.findall` result). -/
structure Extracted where
  urls : List (List Char)
  tokens : List (List Char)
deriving DecidableEq

/-- `extract_info` from `jsanalyzer.py`. -/
def extract_info (code : List Char) : Extracted :=
  { urls := (findUrls code).dedup, tokens := (findTokens code).dedup }

/-- Python `str.strip()` (whitespace both ends), used on the oracle reply. -/
def pyStrip (l : List Char) : List Char :=
  ((l.dropWhile isPySpace).reverse.dropWhile isPySpace).reverse

/-- The fixed prompt text of `explain_with_gemini` before the embedded code. -/
def promptPre : List Char :=
  ("\n    Analyze this JavaScript code and explain in detail:\n    - Any secrets, hardcoded API keys, suspicious logic?\n    - Any security risks like eval, setTimeout with string, or tokens?\n\n    JS Code:\n    ").toList

/-- The fixed prompt text of `explain_with_gemini` after the embedded code. -/
def promptPost : List Char := ("\n    ").toList

/-- The prompt built by `explain_with_gemini` around a code blob. -/
def promptFor (code : List Char) : List Char := promptPre ++ code ++ promptPost

/-- The external oracle capability: a prompt yields either a reply text or a
fault message (`model.generate_content` succeeding or raising). -/
def Oracle : Type := List Char → Except (List Char) (List Char)

/-- `explain_with_gemini`: build the prompt, call the oracle, strip the
reply; any fault becomes the in-band `[ERROR] Gemini failed: ...` text. -/
def explain_with_gemini (oracle : Oracle) (code : List Char) : List Char :=
  match oracle (promptFor code) with
  | .ok t => pyStrip t
  | .error e => ("[ERROR] Gemini failed: ").toList ++ e

/-- Comparison used by Python `results.sort()` on `(index, text)` pairs:
indices are pairwise distinct, so the lexicographic tuple order reduces to
the order on the first component. -/
def pairLE (a b : Nat × List Char) : Bool := a.1 ≤ b.1

/-- `batch_explain_with_gemini`: one oracle call per input; `order` is the
sequence in which `as_completed` delivers the finished calls (an arbitrary
permutation of the submission indices); the indexed results are sorted back
by index and the texts returned.  `max_workers` only bounds the parallelism
of the executor and does not enter the computed value. -/
def batch_explain_with_gemini (oracle : Oracle) (beautified_list : List (List Char))
    (order : List Nat) (max_workers : Nat) : List (List Char) :=
  ((order.map (fun idx => (idx, explain_with_gemini oracle (beautified_list.getD idx [])))).mergeSort
      pairLE).map Prod.snd

/-- What the environment answers to an HTTP GET of a given path. -/
inductive HttpOutcome where
  | resp (status : Nat) (text : List Char)
  | exn (msg : List Char)

/-- What the environment answers to a local read of a given path:
an existing readable file, an existing file whose read raises, or no file. -/
inductive LocalOutcome where
  | file (content : List Char)
  | readErr (msg : List Char)
  | absent

/-- The I/O environment `get_js_content` runs against. -/
structure FetchEnv where
  http : List Char → HttpOutcome
  localFs : List Char → LocalOutcome

/-- List version of Python `str.startswith`. -/
def startsWithL : List Char → List Char → Bool
  | [], _ => true
  | _ :: _, [] => false
  | p :: ps, c :: cs => if c = p then startsWithL ps cs else false

/-- The in-band error tag tested by `main` on fetched content. -/
def errTag : List Char := ("[ERROR]").toList

/-- `get_js_content`: paths starting with `http` are fetched remotely
(status 200 yields the body, any other status the `[ERROR] HTTP n` text);
otherwise an existing local file is read; a missing path or any raised
exception yields the corresponding `[ERROR]` text. -/
def get_js_content (env : FetchEnv) (path : List Char) : List Char × List Char :=
  if startsWithL (("http").toList) path then
    match env.http path with
    | .resp status text =>
        if status = 200 then (path, text)
        else (path, ("[ERROR] HTTP ").toList ++ (Nat.repr status).toList)
    | .exn msg => (path, ("[ERROR] ").toList ++ msg)
  else
    match env.localFs path with
    | .file content => (path, content)
    | .readErr msg => (path, ("[ERROR] ").toList ++ msg)
    | .absent => (path, ("[ERROR] Invalid path").toList)

/-- `gather_all`: `asyncio.gather` resolves every task and returns the
results in the order the tasks were passed. -/
def gather_all (env : FetchEnv) (paths : List (List Char)) : List (List Char × List Char) :=
  paths.map (get_js_content env)

/-- The branches of `get_js_content` that return the genuinely retrieved
content (HTTP 200, or a successful local read) rather than built error text. -/
def fetchYieldsContent (env : FetchEnv) (path : List Char) : Bool :=
  if startsWithL (("http").toList) path then
    match env.http path with
    | .resp status _ => status = 200
    | .exn _ => false
  else
    match env.localFs path with
    | .file _ => true
    | .readErr _ => false
    | .absent => false

/-- The `valid_js` partition of `main`: fetched items whose content does not
start with `[ERROR]`. -/
def valid_js (env : FetchEnv) (paths : List (List Char)) : List (List Char × List Char) :=
  (gather_all env paths).filter (fun pc => !(startsWithL errTag pc.2))

/-- The `errored` partition of `main`: fetched items whose content starts
with `[ERROR]`; these are printed as skipped. -/
def errored (env : FetchEnv) (paths : List (List Char)) : List (List Char × List Char) :=
  (gather_all env paths).filter (fun pc => startsWithL errTag pc.2)

/-- The refs that survive the error partition and flow on to beautify,
analysis and recording. -/
def recordedPaths (env : FetchEnv) (paths : List (List Char)) : List (List Char) :=
  (valid_js env paths).map Prod.fst

/-- The refs printed as skipped. -/
def erroredPaths (env : FetchEnv) (paths : List (List Char)) : List (List Char) :=
  (errored env paths).map Prod.fst

/-- `os.path.basename` on POSIX: the part after the last `/`. -/
def basenameL (l : List Char) : List Char :=
  (l.reverse.takeWhile (fun c => !(c = '/'))).reverse

/-- Python `.split("?")[0]`: the part before the first `?`. -/
def beforeQm (l : List Char) : List Char :=
  l.takeWhile (fun c => !(c = '?'))

/-- The rest of the input when it starts with the literal `.js`. -/
def jsAt : List Char → Option (List Char)
  | '.' :: 'j' :: 's' :: rest => some rest
  | _ => none

theorem jsAt_length {l rest : List Char} (h : jsAt l = some rest) :
    l.length = rest.length + 3 := by
  unfold jsAt at h
  split at h
  · simp only [Option.some.injEq] at h
    subst h
    simp
  · exact absurd h (by simp)

/-- Python `str.replace(".js", "")`: delete the left-to-right
non-overlapping occurrences of `.js`, continuing after each match; `fuel`
bounds the recursion and any value at least the input length is exact. -/
def removeJsF : Nat → List Char → List Char
  | 0, l => l
  | _ + 1, [] => []
  | fuel + 1, c :: cs =>
    match jsAt (c :: cs) with
    | some rest => removeJsF fuel rest
    | none => c :: removeJsF fuel cs

def removeJs (l : List Char) : List Char := removeJsF l.length l

/-- The character class of `re.sub(r'[\\/*?:"<>|]', "_", ...)`. -/
def isBadChar (c : Char) : Bool :=
  c = '\\' || c = '/' || c = '*' || c = '?' || c = ':' || c = '"' || c = '<' || c = '>' || c = '|'

/-- The `re.sub` pass of `main`: each unsafe character becomes `_`. -/
def sanitizeChars (l : List Char) : List Char :=
  l.map (fun c => if isBadChar c then '_' else c)

/-- The output id derived in `main`:
`re.sub(r'[\\/*?:"<>|]', "_", os.path.basename(path).split("?")[0].replace(".js", ""))`. -/
def deriveName (path : List Char) : List Char :=
  sanitizeChars (removeJs (beforeQm (basenameL path)))

/-- Modelled from the spec: strips `.js` only when it is a suffix of the
segment, as the sentence "stripping ... a known content-type suffix" reads;
used solely to compare with the code, which removes every occurrence. -/
def stripJsSuffixSpec (l : List Char) : List Char :=
  if startsWithL (('s' :: 'j' :: '.' :: [])) l.reverse then l.take (l.length - 3) else l

/-- Modelled from the spec: the id derivation with suffix-only stripping. -/
def specDeriveNameC8 (path : List Char) : List Char :=
  sanitizeChars (stripJsSuffixSpec (beforeQm (basenameL path)))

/-- Does `.js` occur as a substring? -/
def hasJsOcc : List Char → Bool
  | [] => false
  | c :: cs =>
    match jsAt (c :: cs) with
    | some _ => true
    | none => hasJsOcc cs

/-- Split at the non-overlapping occurrences of `.js` (the pieces of
`base.split(".js")`); `fuel` as in `removeJsF`. -/
def splitOnJsF : Nat → List Char → List (List Char)
  | 0, l => [l]
  | _ + 1, [] => [[]]
  | fuel + 1, c :: cs =>
    match jsAt (c :: cs) with
    | some rest => [] :: splitOnJsF fuel rest
    | none =>
      match splitOnJsF fuel cs with
      | [] => [[c]]
      | piece :: more => (c :: piece) :: more

def splitOnJs (l : List Char) : List (List Char) := splitOnJsF l.length l

/-- Concatenation of the split pieces (`"".join`). -/
def joinL (ls : List (List Char)) : List Char := ls.foldr (· ++ ·) []

/-- The clamp `max(1, min(args.thread, 10))` of `main`. -/
def max_workers (thread : Int) : Int := max 1 (min thread 10)

/-- An output record as written by `save_output`: the derived id, the
explanation text (report or in-band error), and the extracted findings. -/
structure OutputRecord where
  name : List Char
  explanation : List Char
  extracted : Extracted
deriving DecidableEq

def emptyRecord : OutputRecord :=
  { name := [], explanation := [], extracted := { urls := [], tokens := [] } }

/-- The records written by the loop at the end of `main`, in order: the
i-th valid item is paired with the i-th explanation and its own extraction.
`beautify` stands for the external `jsbeautifier.beautify`. -/
def mainRecords (env : FetchEnv) (oracle : Oracle) (beautify : List Char → List Char)
    (order : List Nat) (thread : Int) (paths : List (List Char)) : List OutputRecord :=
  (List.range (valid_js env paths).length).map (fun i =>
    { name := deriveName ((valid_js env paths).getD i ([], [])).1
      explanation := (batch_explain_with_gemini oracle
          ((valid_js env paths).map (fun pc => beautify pc.2)) order
          ((max_workers thread).toNat)).getD i []
      extracted := extract_info ((valid_js env paths).getD i ([], [])).2 })

/-- State of the bounded worker pool of `batch_explain_with_gemini`
(`ThreadPoolExecutor(max_workers=...)`): queued submissions, in-flight
oracle calls, finished calls. -/
structure PoolState where
  pending : Nat
  inflight : Nat
  done : Nat
deriving DecidableEq

/-- A scheduling step of the executor: a queued call may start only while
fewer than `limit` calls are in flight; an in-flight call may finish. -/
inductive PoolStep (limit : Nat) : PoolState → PoolState → Prop where
  | start {s : PoolState} (hp : 0 < s.pending) (hf : s.inflight < limit) :
      PoolStep limit s ⟨s.pending - 1, s.inflight + 1, s.done⟩
  | finish {s : PoolState} (hf : 0 < s.inflight) :
      PoolStep limit s ⟨s.pending, s.inflight - 1, s.done + 1⟩

/-- Pool states reachable from `n` submitted calls and an idle pool. -/
def poolReachable (limit n : Nat) (s : PoolState) : Prop :=
  Relation.ReflTransGen (PoolStep limit) ⟨n, 0, 0⟩ s

/-- A minimal environment: every remote request faults, no local files. -/
def envW : FetchEnv :=
  { http := fun _ => .exn [], localFs := fun _ => .absent }

/-- An environment with one local file whose genuine content itself starts
with the `[ERROR]` tag. -/
def env5 : FetchEnv :=
  { http := fun _ => .exn []
    localFs := fun p =>
      if p = ("a.js").toList then .file (("[ERROR] fake content").toList) else .absent }

/-- An environment with two readable local files. -/
def env4 : FetchEnv :=
  { http := fun _ => .exn []
    localFs := fun p =>
      if p = ("a.js").toList then .file (("x").toList)
      else if p = ("b.js").toList then .file (("y").toList)
      else .absent }

/-- An oracle that faults exactly on the prompt for code `x` and reports
success on every other prompt. -/
def oracle4 : Oracle := fun p =>
  if p = promptFor (("x").toList) then .error (("quota").toList)
  else .ok (("fine").toList)

/-- The keyword shapes admitted by the spec sentence for credential
candidates, up to lower-casing. -/
def kwSpecLower (kw : List Char) : Prop :=
  kw.map Char.toLower ∈
    [("apikey").toList, ("api_key").toList, ("api-key").toList,
     ("token").toList, ("secret").toList]

theorem getD_map_range {α : Type} (f : Nat → α) {n i : Nat} (d : α) (hi : i < n) :
    ((List.range n).map f).getD i d = f i := by
  rw [List.getD_eq_getElem?_getD, List.getElem?_map, List.getElem?_range hi]
  rfl

theorem getD_map' {α β : Type} (f : α → β) {l : List α} {i : Nat} (d : β) (d' : α)
    (hi : i < l.length) :
    (l.map f).getD i d = f (l.getD i d') := by
  rw [List.getD_eq_getElem?_getD, List.getElem?_map, List.getElem?_eq_getElem hi,
    List.getD_eq_getElem?_getD, List.getElem?_eq_getElem hi]
  rfl

theorem get_js_content_fst (env : FetchEnv) (p : List Char) :
    (get_js_content env p).1 = p := by
  unfold get_js_content
  split
  · split
    · split <;> rfl
    · rfl
  · split <;> rfl

theorem recordedPaths_eq_filter (env : FetchEnv) (paths : List (List Char)) :
    recordedPaths env paths =
      paths.filter (fun p => !(startsWithL errTag (get_js_content env p).2)) := by
  unfold recordedPaths valid_js gather_all
  rw [List.filter_map, List.map_map]
  exact List.map_congr_left (fun p _ => get_js_content_fst env p) |>.trans (List.map_id _)

theorem erroredPaths_eq_filter (env : FetchEnv) (paths : List (List Char)) :
    erroredPaths env paths =
      paths.filter (fun p => startsWithL errTag (get_js_content env p).2) := by
  unfold erroredPaths errored gather_all
  rw [List.filter_map, List.map_map]
  exact List.map_congr_left (fun p _ => get_js_content_fst env p) |>.trans (List.map_id _)

theorem mergeSort_indexed_eq (f : Nat → List Char) (n : Nat) (order : List Nat)
    (h : order.Perm (List.range n)) :
    (order.map (fun i => (i, f i))).mergeSort pairLE =
      (List.range n).map (fun i => (i, f i)) := by
  have hperm : ((order.map (fun i => (i, f i))).mergeSort pairLE).Perm
      ((List.range n).map (fun i => (i, f i))) :=
    (List.mergeSort_perm _ _).trans (h.map _)
  have htrans : ∀ a b c : Nat × List Char,
      pairLE a b = true → pairLE b c = true → pairLE a c = true := by
    intro a b c hab hbc
    simp only [pairLE, decide_eq_true_eq] at hab hbc ⊢
    omega
  have htotal : ∀ a b : Nat × List Char, (pairLE a b || pairLE b a) = true := by
    intro a b
    simp only [pairLE, Bool.or_eq_true, decide_eq_true_eq]
    omega
  have hsorted := List.sorted_mergeSort htrans htotal (order.map (fun i => (i, f i)))
  have hkeys : (((order.map (fun i => (i, f i))).mergeSort pairLE).map Prod.fst).Nodup := by
    have h2 : (((order.map (fun i => (i, f i))).mergeSort pairLE).map Prod.fst).Perm
        (((List.range n).map (fun i => (i, f i))).map Prod.fst) := hperm.map _
    rw [List.map_map] at h2
    have h3 : (List.range n).map (Prod.fst ∘ fun i => (i, f i)) = List.range n :=
      (List.map_congr_left (fun a _ => rfl)).trans (List.map_id _)
    rw [h3] at h2
    exact (List.nodup_range n).perm h2.symm
  have hne : List.Pairwise (fun a b : Nat × List Char => a.1 ≠ b.1)
      ((order.map (fun i => (i, f i))).mergeSort pairLE) := by
    rw [List.Nodup, List.pairwise_map] at hkeys
    exact hkeys
  have hlt1 : List.Pairwise (fun a b : Nat × List Char => a.1 < b.1)
      ((order.map (fun i => (i, f i))).mergeSort pairLE) := by
    have hand := hsorted.and hne
    exact hand.imp (by
      intro a b hab
      obtain ⟨h1, h2⟩ := hab
      simp only [pairLE, decide_eq_true_eq] at h1
      omega)
  have hlt2 : List.Pairwise (fun a b : Nat × List Char => a.1 < b.1)
      ((List.range n).map (fun i => (i, f i))) := by
    rw [List.pairwise_map]
    exact List.pairwise_lt_range n
  haveI : IsAntisymm (Nat × List Char) (fun a b => a.1 < b.1) :=
    ⟨fun a b h1 h2 => absurd (Nat.lt_trans h1 h2) (Nat.lt_irrefl _)⟩
  exact List.eq_of_perm_of_sorted hperm hlt1 hlt2

theorem batch_explain_getD (oracle : Oracle) (codes : List (List Char)) (order : List Nat)
    (mw : Nat) (h : order.Perm (List.range codes.length)) :
    (batch_explain_with_gemini oracle codes order mw).length = codes.length ∧
    ∀ i, i < codes.length →
      (batch_explain_with_gemini oracle codes order mw).getD i [] =
        explain_with_gemini oracle (codes.getD i []) := by
  unfold batch_explain_with_gemini
  rw [mergeSort_indexed_eq (fun i => explain_with_gemini oracle (codes.getD i []))
    codes.length order h, List.map_map]
  constructor
  · simp
  · intro i hi
    exact getD_map_range _ _ hi

theorem splitOnJsF_ne_nil (fuel : Nat) (l : List Char) : splitOnJsF fuel l ≠ [] := by
  cases fuel with
  | zero => simp [splitOnJsF]
  | succ f =>
    cases l with
    | nil => simp [splitOnJsF]
    | cons c cs =>
      simp only [splitOnJsF]
      split
      · simp
      · split <;> simp

theorem removeJsF_of_no_occ : ∀ (fuel : Nat) (l : List Char), l.length ≤ fuel →
    hasJsOcc l = false → removeJsF fuel l = l := by
  intro fuel
  induction fuel with
  | zero =>
    intro l hl h
    rfl
  | succ f ih =>
    intro l hl h
    cases l with
    | nil => rfl
    | cons c cs =>
      cases hj : jsAt (c :: cs) with
      | some rest =>
        simp only [hasJsOcc, hj] at h
        exact Bool.noConfusion h
      | none =>
        simp only [hasJsOcc, hj] at h
        simp only [removeJsF, hj]
        rw [ih cs (by simp at hl; omega) h]

theorem removeJs_of_no_occ (l : List Char) (h : hasJsOcc l = false) : removeJs l = l :=
  removeJsF_of_no_occ l.length l (Nat.le_refl _) h

theorem removeJsF_eq_joinL : ∀ (fuel : Nat) (l : List Char), l.length ≤ fuel →
    removeJsF fuel l = joinL (splitOnJsF fuel l) := by
  intro fuel
  induction fuel with
  | zero =>
    intro l hl
    have hnil : l = [] := List.eq_nil_of_length_eq_zero (Nat.le_zero.mp hl)
    subst hnil
    rfl
  | succ f ih =>
    intro l hl
    cases l with
    | nil => rfl
    | cons c cs =>
      cases hj : jsAt (c :: cs) with
      | some rest =>
        have hlen := jsAt_length hj
        simp only [removeJsF, splitOnJsF, hj]
        rw [ih rest (by simp only [List.length_cons] at hl hlen; omega)]
        simp [joinL]
      | none =>
        simp only [removeJsF, splitOnJsF, hj]
        cases hs : splitOnJsF f cs with
        | nil => exact absurd hs (splitOnJsF_ne_nil f cs)
        | cons piece more =>
          simp only [hs]
          have h2 := ih cs (by simp at hl; omega)
          rw [hs] at h2
          simp only [joinL, List.foldr] at h2 ⊢
          rw [h2]
          simp

theorem removeJs_eq_joinL (l : List Char) : removeJs l = joinL (splitOnJs l) :=
  removeJsF_eq_joinL l.length l (Nat.le_refl _)

theorem mainRecords_length (env : FetchEnv) (oracle : Oracle)
    (beautify : List Char → List Char) (order : List Nat) (thread : Int)
    (paths : List (List Char)) :
    (mainRecords env oracle beautify order thread paths).length =
      (valid_js env paths).length := by
  unfold mainRecords
  simp

theorem mainRecords_getD (env : FetchEnv) (oracle : Oracle)
    (beautify : List Char → List Char) (order : List Nat) (thread : Int)
    (paths : List (List Char)) {i : Nat} (hi : i < (valid_js env paths).length) :
    (mainRecords env oracle beautify order thread paths).getD i emptyRecord =
      { name := deriveName ((valid_js env paths).getD i ([], [])).1
        explanation := (batch_explain_with_gemini oracle
            ((valid_js env paths).map (fun pc => beautify pc.2)) order
            ((max_workers thread).toNat)).getD i []
        extracted := extract_info ((valid_js env paths).getD i ([], [])).2 } := by
  unfold mainRecords
  exact getD_map_range _ _ hi

theorem stripCI_decomp : ∀ {p cs r : List Char}, stripCI p cs = some r →
    ∃ w, cs = w ++ r ∧ w.map Char.toLower = p.map Char.toLower := by
  intro p
  induction p with
  | nil =>
    intro cs r h
    simp only [stripCI, Option.some.injEq] at h
    exact ⟨[], by simp [h], by simp⟩
  | cons a ps ih =>
    intro cs r h
    cases cs with
    | nil => exact absurd h (by simp [stripCI])
    | cons c cs' =>
      simp only [stripCI] at h
      split at h
      · rename_i heq
        obtain ⟨w, hw, hmap⟩ := ih h
        exact ⟨c :: w, by simp [hw], by simp [hmap, heq]⟩
      · exact absurd h (by simp)

theorem matchKeyword_decomp {cs r : List Char} (h : matchKeyword cs = some r) :
    ∃ kw, cs = kw ++ r ∧ kwSpecLower kw := by
  unfold matchKeyword at h
  split at h
  · rename_i r1 hapi
    obtain ⟨w1, hw1, hm1⟩ := stripCI_decomp hapi
    split at h
    · rename_i c r'
      split at h
      · rename_i hc
        split at h
        · rename_i r2 hkey
          simp only [Option.some.injEq] at h
          subst h
          obtain ⟨w2, hw2, hm2⟩ := stripCI_decomp hkey
          refine ⟨w1 ++ c :: w2, ?_, ?_⟩
          · rw [hw1, hw2]
            simp
          · unfold kwSpecLower
            rw [List.map_append, List.map_cons, hm1, hm2]
            simp only [Bool.or_eq_true, decide_eq_true_eq] at hc
            rcases hc with hc | hc <;> subst hc <;> decide
        · obtain ⟨w2, hw2, hm2⟩ := stripCI_decomp h
          refine ⟨w1 ++ w2, ?_, ?_⟩
          · rw [hw1, hw2]
            simp
          · unfold kwSpecLower
            rw [List.map_append, hm1, hm2]
            decide
      · obtain ⟨w2, hw2, hm2⟩ := stripCI_decomp h
        refine ⟨w1 ++ w2, ?_, ?_⟩
        · rw [hw1, hw2]
          simp
        · unfold kwSpecLower
          rw [List.map_append, hm1, hm2]
          decide
    · exact absurd h (by simp)
  · split at h
    · rename_i r1 htok
      simp only [Option.some.injEq] at h
      subst h
      obtain ⟨w, hw, hm⟩ := stripCI_decomp htok
      refine ⟨w, hw, ?_⟩
      unfold kwSpecLower
      rw [hm]
      decide
    · obtain ⟨w, hw, hm⟩ := stripCI_decomp h
      refine ⟨w, hw, ?_⟩
      unfold kwSpecLower
      rw [hm]
      decide

theorem matchTokenAt_decomp {cs v rest : List Char} (h : matchTokenAt cs = some (v, rest)) :
    ∃ kw sep qpart, cs = kw ++ sep ++ qpart ++ v ++ rest ∧ kwSpecLower kw ∧
      sep ≠ [] ∧ (∀ c ∈ sep, isSepChar c = true) ∧
      (qpart = [] ∨ ∃ q, qpart = [q] ∧ isQuoteChar q = true) ∧
      (∀ c ∈ v, isTokChar c = true) ∧ 8 ≤ v.length := by
  unfold matchTokenAt at h
  split at h
  · exact absurd h (by simp)
  · rename_i r hkw
    obtain ⟨kw, hcs, hkwspec⟩ := matchKeyword_decomp hkw
    split at h
    · exact absurd h (by simp)
    · rename_i hsep
      have hsepne : r.takeWhile isSepChar ≠ [] := by
        simpa [List.isEmpty_iff] using hsep
      have hsplit : r.takeWhile isSepChar ++ r.dropWhile isSepChar = r :=
        List.takeWhile_append_dropWhile _ _
      split at h
      · rename_i c rest2 hdrop
        split at h
        · rename_i hq
          split at h
          · exact absurd h (by simp)
          · rename_i hlen
            simp only [Option.some.injEq, Prod.mk.injEq] at h
            obtain ⟨hv, hr⟩ := h
            subst hv
            subst hr
            have hsplit2 : rest2.takeWhile isTokChar ++ rest2.dropWhile isTokChar = rest2 :=
              List.takeWhile_append_dropWhile _ _
            refine ⟨kw, r.takeWhile isSepChar, [c], ?_, hkwspec, hsepne,
              fun c hc => List.mem_takeWhile_imp hc, Or.inr ⟨c, rfl, hq⟩,
              fun c hc => List.mem_takeWhile_imp hc, by omega⟩
            calc cs = kw ++ r := hcs
              _ = kw ++ (r.takeWhile isSepChar ++ r.dropWhile isSepChar) := by rw [hsplit]
              _ = kw ++ (r.takeWhile isSepChar ++ (c :: rest2)) := by rw [hdrop]
              _ = kw ++ (r.takeWhile isSepChar
                    ++ (c :: (rest2.takeWhile isTokChar ++ rest2.dropWhile isTokChar))) := by
                  rw [hsplit2]
              _ = kw ++ r.takeWhile isSepChar ++ [c] ++ rest2.takeWhile isTokChar
                    ++ rest2.dropWhile isTokChar := by simp
        · rename_i hq
          split at h
          · exact absurd h (by simp)
          · rename_i hlen
            simp only [Option.some.injEq, Prod.mk.injEq] at h
            obtain ⟨hv, hr⟩ := h
            subst hv
            subst hr
            have hsplit2 : (c :: rest2).takeWhile isTokChar ++ (c :: rest2).dropWhile isTokChar
                = c :: rest2 := List.takeWhile_append_dropWhile _ _
            refine ⟨kw, r.takeWhile isSepChar, [], ?_, hkwspec, hsepne,
              fun c hc => List.mem_takeWhile_imp hc, Or.inl rfl,
              fun c hc => List.mem_takeWhile_imp hc, by omega⟩
            calc cs = kw ++ r := hcs
              _ = kw ++ (r.takeWhile isSepChar ++ r.dropWhile isSepChar) := by rw [hsplit]
              _ = kw ++ (r.takeWhile isSepChar ++ (c :: rest2)) := by rw [hdrop]
              _ = kw ++ (r.takeWhile isSepChar
                    ++ ((c :: rest2).takeWhile isTokChar
                        ++ (c :: rest2).dropWhile isTokChar)) := by rw [hsplit2]
              _ = kw ++ r.takeWhile isSepChar ++ [] ++ (c :: rest2).takeWhile isTokChar
                    ++ (c :: rest2).dropWhile isTokChar := by simp
      · exact absurd h (by simp)

theorem findTokensAux_mem : ∀ (fuel : Nat) (l t : List Char), l.length ≤ fuel →
    t ∈ findTokensAux fuel l →
    ∃ pre mid rest, l = pre ++ mid ∧ matchTokenAt mid = some (t, rest) := by
  intro fuel
  induction fuel with
  | zero =>
    intro l t hl ht
    exact absurd ht (by simp [findTokensAux])
  | succ f ih =>
    intro l t hl ht
    cases l with
    | nil => exact absurd ht (by simp [findTokensAux])
    | cons c cs =>
      cases hm : matchTokenAt (c :: cs) with
      | some vr =>
        obtain ⟨v, rest⟩ := vr
        simp only [findTokensAux, hm] at ht
        rcases List.mem_cons.mp ht with hv | htl
        · exact ⟨[], c :: cs, rest, by simp, by rw [hv]; exact hm⟩
        · have hrest : rest.length ≤ f := by
            have hlt := matchTokenAt_rest_lt hm
            simp only [List.length_cons] at hl hlt
            omega
          obtain ⟨pre, mid, rest2, hsplit, hm2⟩ := ih rest t hrest htl
          obtain ⟨kw, sep, qpart, hdec, _⟩ := matchTokenAt_decomp hm
          refine ⟨kw ++ sep ++ qpart ++ v ++ pre, mid, rest2, ?_, hm2⟩
          rw [hdec, hsplit]
          simp
      | none =>
        simp only [findTokensAux, hm] at ht
        have hcs : cs.length ≤ f := by simp at hl; omega
        obtain ⟨pre, mid, rest2, hsplit, hm2⟩ := ih cs t hcs ht
        exact ⟨c :: pre, mid, rest2, by rw [hsplit]; simp, hm2⟩

/-- C1: for every input sequence and any concurrency limit in [1,10],
`batch_explain_with_gemini` returns one result per input, in input order:
for every permutation `order` in which the concurrent calls complete, the
i-th returned text is the analysis of the i-th input. -/
theorem C1_batch_preserves_input_order (oracle : Oracle) (codes : List (List Char))
    (order : List Nat) (mw : Nat) (hmw : 1 ≤ mw ∧ mw ≤ 10)
    (h : order.Perm (List.range codes.length)) :
    (batch_explain_with_gemini oracle codes order mw).length = codes.length ∧
    ∀ i, i < codes.length →
      (batch_explain_with_gemini oracle codes order mw).getD i [] =
        explain_with_gemini oracle (codes.getD i []) :=
  batch_explain_getD oracle codes order mw h

/-- Witness for C1 at a concrete oracle, inputs and completion order. -/
theorem C1_witness :
    (batch_explain_with_gemini (fun p => .ok p) [("a").toList, ("b").toList] [1, 0] 3).getD 0 []
      = explain_with_gemini (fun p => .ok p) (("a").toList) :=
  (C1_batch_preserves_input_order (fun p => .ok p) [("a").toList, ("b").toList] [1, 0] 3
    (by decide) (by decide)).2 0 (by decide)

/-- C2: for every non-empty list of refs, `gather_all` yields exactly one
fetch result per ref, in input order, each result keyed by its own ref;
no ref is left unresolved. -/
theorem C2_gather_all_one_per_ref (env : FetchEnv) (paths : List (List Char))
    (hne : paths ≠ []) :
    (gather_all env paths).length = paths.length ∧
    ∀ i, i < paths.length →
      (gather_all env paths).getD i ([], []) = get_js_content env (paths.getD i []) ∧
      ((gather_all env paths).getD i ([], [])).1 = paths.getD i [] := by
  refine ⟨by simp [gather_all], ?_⟩
  intro i hi
  have h1 : (gather_all env paths).getD i ([], []) = get_js_content env (paths.getD i []) := by
    unfold gather_all
    exact getD_map' _ _ _ hi
  exact ⟨h1, by rw [h1]; exact get_js_content_fst env _⟩

/-- Witness for C2 at a concrete environment and ref list. -/
theorem C2_witness :
    (gather_all envW [("p").toList]).length = [("p").toList].length :=
  (C2_gather_all_one_per_ref envW [("p").toList] (by decide)).1

/-- C3: in every schedule of the bounded executor started with the clamped
worker count of `main`, the number of in-flight oracle calls never exceeds
that limit; queued calls are admitted only through the guarded start step. -/
theorem C3_pool_bounded (thread : Int) (n : Nat) (s : PoolState)
    (h : poolReachable ((max_workers thread).toNat) n s) :
    s.inflight ≤ (max_workers thread).toNat := by
  induction h with
  | refl => exact Nat.zero_le _
  | tail hsteps step ih =>
    cases step with
    | start hp hf => exact hf
    | finish hf =>
      simp only []
      omega

/-- Witness for C3 at a concrete thread request and schedule. -/
theorem C3_witness : (⟨5, 0, 0⟩ : PoolState).inflight ≤ (max_workers 3).toNat :=
  C3_pool_bounded 3 5 ⟨5, 0, 0⟩ Relation.ReflTransGen.refl

/-- C7: the output id derived in `main` never contains any of the
characters banned for storage keys. -/
theorem C7_deriveName_no_unsafe_chars (path : List Char) :
    ∀ c, c ∈ deriveName path → isBadChar c = false := by
  intro c hc
  unfold deriveName sanitizeChars at hc
  rw [List.mem_map] at hc
  obtain ⟨a, ha, hac⟩ := hc
  by_cases hb : isBadChar a = true
  · rw [if_pos hb] at hac
    rw [← hac]
    decide
  · rw [if_neg hb] at hac
    rw [← hac]
    simpa using hb

/-- Witness for C7 at a concrete ref containing an unsafe character. -/
theorem C7_witness : isBadChar 'a' = false :=
  C7_deriveName_no_unsafe_chars (("a:b.js").toList) 'a' (by decide)

/-- C5 counterexample: a successful local read whose genuine content itself
starts with the `[ERROR]` tag yields Content at fetch level, yet the item is
not recorded, so the recorded set is not the set of refs whose fetch
yielded Content. -/
theorem C5_counterexample :
    fetchYieldsContent env5 (("a.js").toList) = true ∧
    recordedPaths env5 [("a.js").toList] = [] ∧
    recordedPaths env5 [("a.js").toList] ≠
      ([("a.js").toList]).filter (fun p => fetchYieldsContent env5 p) := by
  refine ⟨by decide, by decide, by decide⟩

/-- C5 (amended): items are partitioned by the `[ERROR]`-prefix test on the
retrieved text: the refs that are normalized, analyzed and recorded are
exactly those whose retrieved text does not start with `[ERROR]`; the
others are reported per-item and never reach the analyzer or recorder, and
the batch still emits one record per surviving item. -/
theorem C5_error_partition (env : FetchEnv) (paths : List (List Char)) :
    recordedPaths env paths =
      paths.filter (fun p => !(startsWithL errTag (get_js_content env p).2)) ∧
    erroredPaths env paths =
      paths.filter (fun p => startsWithL errTag (get_js_content env p).2) ∧
    (∀ p, p ∈ paths → startsWithL errTag (get_js_content env p).2 = true →
      p ∈ erroredPaths env paths ∧ p ∉ recordedPaths env paths) ∧
    ∀ oracle beautify order thread,
      (mainRecords env oracle beautify order thread paths).length =
        (valid_js env paths).length := by
  refine ⟨recordedPaths_eq_filter env paths, erroredPaths_eq_filter env paths, ?_, ?_⟩
  · intro p hp he
    constructor
    · rw [erroredPaths_eq_filter]
      exact List.mem_filter.mpr ⟨hp, he⟩
    · rw [recordedPaths_eq_filter]
      intro hmem
      have h2 := (List.mem_filter.mp hmem).2
      rw [he] at h2
      exact absurd h2 (by simp)
  · intro oracle beautify order thread
    exact mainRecords_length env oracle beautify order thread paths

/-- Witness for C5 (amended) at a concrete environment and ref list. -/
theorem C5_witness :
    ("a.js").toList ∈ erroredPaths env5 [("a.js").toList] ∧
    ("a.js").toList ∉ recordedPaths env5 [("a.js").toList] :=
  (C5_error_partition env5 [("a.js").toList]).2.2.1 (("a.js").toList)
    (by decide) (by decide)

/-- C10: success and failure of a fetch are distinguished solely by the
`[ERROR]` string-prefix test: an item whose fetch genuinely yielded content
that itself starts with `[ERROR]` is treated as a fetch error, reported as
skipped, and never analyzed or recorded. -/
theorem C10_error_prefixed_content_skipped (env : FetchEnv) (paths : List (List Char))
    (p : List Char) (hp : p ∈ paths) (hC : fetchYieldsContent env p = true)
    (hE : startsWithL errTag (get_js_content env p).2 = true) :
    p ∈ erroredPaths env paths ∧ p ∉ recordedPaths env paths := by
  constructor
  · rw [erroredPaths_eq_filter]
    exact List.mem_filter.mpr ⟨hp, hE⟩
  · rw [recordedPaths_eq_filter]
    intro hmem
    have h2 := (List.mem_filter.mp hmem).2
    rw [hE] at h2
    exact absurd h2 (by simp)

/-- Witness for C10: a readable local file whose content is
`[ERROR] fake content`. -/
theorem C10_witness :
    ("a.js").toList ∈ erroredPaths env5 [("a.js").toList] ∧
    ("a.js").toList ∉ recordedPaths env5 [("a.js").toList] ∧
    fetchYieldsContent env5 (("a.js").toList) = true := by
  have h := C10_error_prefixed_content_skipped env5 [("a.js").toList] (("a.js").toList)
    (by decide) (by decide) (by decide)
  exact ⟨h.1, h.2, by decide⟩

/-- C6: extraction has set semantics: both returned lists are duplicate-free,
their membership is exactly membership in the respective scan results, and
deduplicated membership is invariant under any permutation of the order in
which the matches were discovered.  `extract_info` is a pure function, so
re-running it on the same text trivially yields the same result. -/
theorem C6_extract_set_semantics (code : List Char) :
    (extract_info code).urls.Nodup ∧ (extract_info code).tokens.Nodup ∧
    (∀ u, u ∈ (extract_info code).urls ↔ u ∈ findUrls code) ∧
    (∀ t, t ∈ (extract_info code).tokens ↔ t ∈ findTokens code) ∧
    (∀ l : List (List Char), l.Perm (findUrls code) →
      ∀ u, u ∈ l.dedup ↔ u ∈ (extract_info code).urls) ∧
    (∀ l : List (List Char), l.Perm (findTokens code) →
      ∀ t, t ∈ l.dedup ↔ t ∈ (extract_info code).tokens) := by
  refine ⟨List.nodup_dedup _, List.nodup_dedup _,
    fun u => List.mem_dedup, fun t => List.mem_dedup, ?_, ?_⟩
  · intro l hl u
    simp [extract_info, List.mem_dedup, hl.mem_iff]
  · intro l hl t
    simp [extract_info, List.mem_dedup, hl.mem_iff]

/-- Witness for C6: the discovery order of the two URL matches is reversed
and deduplicated membership is unchanged. -/
theorem C6_witness :
    ("http://u").toList ∈ ((findUrls (("http://u x http://u").toList)).reverse).dedup ↔
      ("http://u").toList ∈ (extract_info (("http://u x http://u").toList)).urls :=
  (C6_extract_set_semantics (("http://u x http://u").toList)).2.2.2.2.1
    ((findUrls (("http://u x http://u").toList)).reverse) (by decide) (("http://u").toList)

/-- C8 counterexample: for the ref `config.json` the code removes the inner
`.js` occurrence and derives `configon`, while stripping `.js` only as a
content-type suffix would leave `config.json` unchanged; a part of the
segment other than the suffix is altered. -/
theorem C8_counterexample :
    deriveName (("config.json").toList) = ("configon").toList ∧
    specDeriveNameC8 (("config.json").toList) = ("config.json").toList ∧
    deriveName (("config.json").toList) ≠ specDeriveNameC8 (("config.json").toList) := by
  refine ⟨by decide, by decide, by decide⟩

/-- C8 (amended): the id is derived by taking the final path segment,
truncating at the first `?`, deleting every occurrence of the substring
`.js` (not only a trailing suffix), then replacing unsafe characters by
`_`; a segment without any `.js` occurrence passes the deletion unchanged. -/
theorem C8_deriveName_pipeline (path : List Char) :
    deriveName path =
      sanitizeChars (joinL (splitOnJs (beforeQm (basenameL path)))) ∧
    (∀ l, hasJsOcc l = false → removeJs l = l) := by
  refine ⟨?_, fun l h => removeJs_of_no_occ l h⟩
  unfold deriveName
  rw [removeJs_eq_joinL]

/-- Witness for C8 (amended) at concrete inputs. -/
theorem C8_witness :
    deriveName (("a.js?x").toList) =
      sanitizeChars (joinL (splitOnJs (beforeQm (basenameL (("a.js?x").toList))))) ∧
    removeJs (("abc").toList) = ("abc").toList :=
  ⟨(C8_deriveName_pipeline (("a.js?x").toList)).1,
   (C8_deriveName_pipeline (("a.js?x").toList)).2 (("abc").toList) (by decide)⟩

/-- C4: a fault of the oracle on one item is converted to the in-band
`[ERROR] Gemini failed: ...` text for that item only: the batch still emits
one record per surviving item, the faulting item's record carries the error
text in place of the report, and every item's recorded explanation is
exactly the analysis of its own input, unaffected by the other calls. -/
theorem C4_analysis_fault_isolated (env : FetchEnv) (oracle : Oracle)
    (beautify : List Char → List Char) (order : List Nat) (thread : Int)
    (paths : List (List Char))
    (h : order.Perm (List.range (valid_js env paths).length))
    (i : Nat) (hi : i < (valid_js env paths).length) (msg : List Char)
    (hf : oracle (promptFor (beautify (((valid_js env paths).getD i ([], [])).2)))
      = .error msg) :
    (mainRecords env oracle beautify order thread paths).length =
      (valid_js env paths).length ∧
    ((mainRecords env oracle beautify order thread paths).getD i emptyRecord).explanation =
      ("[ERROR] Gemini failed: ").toList ++ msg ∧
    ∀ j, j < (valid_js env paths).length →
      ((mainRecords env oracle beautify order thread paths).getD j emptyRecord).explanation =
        explain_with_gemini oracle (beautify (((valid_js env paths).getD j ([], [])).2)) := by
  have hlen : ((valid_js env paths).map (fun pc => beautify pc.2)).length =
      (valid_js env paths).length := by simp
  have h2 : order.Perm
      (List.range ((valid_js env paths).map (fun pc => beautify pc.2)).length) := by
    rw [hlen]
    exact h
  have hb := batch_explain_getD oracle ((valid_js env paths).map (fun pc => beautify pc.2))
    order ((max_workers thread).toNat) h2
  have hgen : ∀ j, j < (valid_js env paths).length →
      ((mainRecords env oracle beautify order thread paths).getD j emptyRecord).explanation =
        explain_with_gemini oracle (beautify (((valid_js env paths).getD j ([], [])).2)) := by
    intro j hj
    rw [mainRecords_getD env oracle beautify order thread paths hj]
    have hbj := hb.2 j (by rw [hlen]; exact hj)
    rw [getD_map' (fun pc => beautify pc.2) [] ([], []) hj] at hbj
    exact hbj
  refine ⟨mainRecords_length env oracle beautify order thread paths, ?_, hgen⟩
  rw [hgen i hi]
  unfold explain_with_gemini
  rw [hf]

set_option maxRecDepth 8000 in
/-- Witness for C4: the oracle faults on the first item of a two-item batch
and the first record carries the in-band error text. -/
theorem C4_witness :
    ((mainRecords env4 oracle4 (fun l => l) [1, 0] 3
        [("a.js").toList, ("b.js").toList]).getD 0 emptyRecord).explanation =
      ("[ERROR] Gemini failed: ").toList ++ ("quota").toList :=
  (C4_analysis_fault_isolated env4 oracle4 (fun l => l) [1, 0] 3
    [("a.js").toList, ("b.js").toList] (by decide) 0 (by decide)
    (("quota").toList) (by rfl)).2.1

/-- C9: the credential-candidate set contains exactly the captured groups
of the scan, and every member is the captured value of a substring of the
input made of a keyword (case-insensitive), a nonempty run of separator
characters, an optional quote, and the captured contiguous run of at least
8 word characters or hyphens. -/
theorem C9_tokens_characterization (code : List Char) :
    (∀ t, t ∈ (extract_info code).tokens ↔ t ∈ findTokens code) ∧
    (∀ t, t ∈ (extract_info code).tokens →
      ∃ pre kw sep qpart post, code = pre ++ kw ++ sep ++ qpart ++ t ++ post ∧
        kwSpecLower kw ∧ sep ≠ [] ∧ (∀ c ∈ sep, isSepChar c = true) ∧
        (qpart = [] ∨ ∃ q, qpart = [q] ∧ isQuoteChar q = true) ∧
        (∀ c ∈ t, isTokChar c = true) ∧ 8 ≤ t.length) := by
  constructor
  · intro t
    exact List.mem_dedup
  · intro t ht
    have ht2 : t ∈ findTokens code := List.mem_dedup.mp ht
    obtain ⟨pre, mid, rest, hsplit, hm⟩ :=
      findTokensAux_mem code.length code t (Nat.le_refl _) ht2
    obtain ⟨kw, sep, qpart, hdec, hkw, hsep, hsepall, hq, htok, hlen⟩ :=
      matchTokenAt_decomp hm
    refine ⟨pre, kw, sep, qpart, rest, ?_, hkw, hsep, hsepall, hq, htok, hlen⟩
    rw [hsplit, hdec]
    simp

/-- Witness for C9 at a concrete input containing one credential match. -/
theorem C9_witness :
    ∃ pre kw sep qpart post,
      ("token: abcdefgh").toList = pre ++ kw ++ sep ++ qpart ++ ("abcdefgh").toList ++ post ∧
      kwSpecLower kw ∧ sep ≠ [] ∧ (∀ c ∈ sep, isSepChar c = true) ∧
      (qpart = [] ∨ ∃ q, qpart = [q] ∧ isQuoteChar q = true) ∧
      (∀ c ∈ ("abcdefgh").toList, isTokChar c = true) ∧ 8 ≤ (("abcdefgh").toList).length :=
  (C9_tokens_characterization (("token: abcdefgh").toList)).2 (("abcdefgh").toList) (by decide)
